import Mathlib

set_option maxHeartbeats 2000000
set_option linter.unusedVariables false

/-!
Verification of the moderation plugin (`server/` of the
mattermost-plugin-community-toolkit repository), as a shallow embedding:
Go strings are Lean `String`s (rune lists via `String.data`), Go byte
lengths are computed per rune, the Go map inside the LRU cache is an
association list whose order stands for the map's iteration order, and
`time.Now()` is a logical clock that advances at every cache operation.
Go library functions that are not part of the repository
(`time.ParseDuration`, `Duration.String`) are abstracted as function
parameters.
-/

namespace Toolkit

/-- Models the UTF-8 byte size of one rune, so that Go `len(s)` can be
computed on a rune list. -/
def goCharSize (c : Char) : Nat :=
  if c.toNat < 128 then 1
  else if c.toNat < 2048 then 2
  else if c.toNat < 65536 then 3
  else 4

/-- Models Go `len(s)` (UTF-8 byte length) of a rune list. -/
def goLenL (l : List Char) : Nat := (l.map goCharSize).sum

/-- Models `strings.Split(s, ",")`. -/
def splitComma : List Char → List (List Char)
  | [] => [[]]
  | c :: cs =>
    if c = ',' then [] :: splitComma cs
    else
      match splitComma cs with
      | [] => [[c]]
      | g :: gs => (c :: g) :: gs

/-- The ASCII fragment of `unicode.IsSpace`, as consulted by
`strings.TrimSpace` (the configuration strings in question are ASCII). -/
def isSpaceGo (c : Char) : Bool :=
  c = ' ' || c = '\t' || c = '\n' || c = '\r' || c.toNat = 11 || c.toNat = 12

/-- Models `strings.TrimSpace`. -/
def trimChars (l : List Char) : List Char :=
  ((l.dropWhile isSpaceGo).reverse.dropWhile isSpaceGo).reverse

/-- The byte-length-descending order used by `wordListToRegex`'s
`sort.Slice(split, func(i, j) { return len(split[i]) > len(split[j]) })`. -/
def lenGE (a b : List Char) : Prop := goLenL b ≤ goLenL a

instance : DecidableRel lenGE := fun _ _ => Nat.decLe _ _

instance : IsTotal (List Char) lenGE := ⟨fun a b => Nat.le_total (goLenL b) (goLenL a)⟩

instance : IsTrans (List Char) lenGE := ⟨fun _ _ _ h1 h2 => Nat.le_trans h2 h1⟩

/-- Models the token preparation in `wordListToRegex`
(server/configuration.go:215-227): split the comma-separated list, trim
whitespace from each item, and sort by descending byte length so longer
words come first in the alternation.  The source's sort is unstable and
the tie order unspecified; it is modeled by insertion sort. -/
def wordListTokens (wordList : List Char) : List (List Char) :=
  List.insertionSort lenGE ((splitComma wordList).map trimChars)

/-- The word characters of Go regexp's `\b` (`[0-9A-Za-z_]`). -/
def isWordChar (c : Char) : Bool := c.isAlphanum || c = '_'

/-- Lowercasing for the `(?i)` flag (ASCII case folding). -/
def lcL (l : List Char) : List Char := l.map Char.toLower

/-- Whether position `i` of `s` holds a word character. -/
def wordAt (s : List Char) (i : Nat) : Bool :=
  match s.get? i with
  | some c => isWordChar c
  | none => false

/-- Go regexp `\b` at rune position `i` of `s`: the word-character
status changes between `i - 1` and `i` (out of range counts as
non-word). -/
def bdry (s : List Char) (i : Nat) : Bool :=
  (decide (i ≠ 0) && wordAt s (i - 1)) != wordAt s i

/-- Case-insensitive literal match of token `t` at rune position `p` of
`s`, with no anchors: one alternative of the domain/username template
`(?mi)(%s)`. -/
def tokAt (t s : List Char) (p : Nat) : Bool :=
  (lcL t).isPrefixOf (lcL (s.drop p))

/-- As `tokAt`, with `\b` on both sides: one alternative of the
bad-words template `(?mi)\b(%s)\b`. -/
def tokAtB (t s : List Char) (p : Nat) : Bool :=
  tokAt t s p && bdry s p && bdry s (p + t.length)

/-- The first alternative (in list order) matching at `p`: Go regexp
alternation is leftmost-first, so earlier alternatives win at a given
starting position. -/
def firstTokAtB (toks : List (List Char)) (s : List Char) (p : Nat) : Option (List Char) :=
  toks.find? (fun t => tokAtB t s p)

/-- As `firstTokAtB` for the unanchored template. -/
def firstTokAtN (toks : List (List Char)) (s : List Char) (p : Nat) : Option (List Char) :=
  toks.find? (fun t => tokAt t s p)

/-- The slice of the text that a match reports
(`FindAllString` returns substrings of the input). -/
def sliceAt (s : List Char) (p n : Nat) : List Char := (s.drop p).take n

/-- Scanning loop of `FindAllString(s, -1)` for the word-boundary
alternation: leftmost match, then continue after it (non-overlapping).
Empty-width matches advance by one rune and are not recorded (the word
lists under study have no empty tokens). -/
def findAllAuxB (toks : List (List Char)) (s : List Char) : Nat → Nat → List (List Char)
  | 0, _ => []
  | fuel + 1, p =>
    if s.length < p then []
    else
      match firstTokAtB toks s p with
      | some t =>
        if t.length = 0 then findAllAuxB toks s fuel (p + 1)
        else sliceAt s p t.length :: findAllAuxB toks s fuel (p + t.length)
      | none => findAllAuxB toks s fuel (p + 1)

/-- Models `FindAllString(s, -1)` for the compiled bad-words regex. -/
def findAllB (toks : List (List Char)) (s : List Char) : List (List Char) :=
  findAllAuxB toks s (s.length + 1) 0

/-- Models `MatchString` for the compiled bad-words regex. -/
def matchStringB (toks : List (List Char)) (s : List Char) : Bool :=
  !(findAllB toks s).isEmpty

/-- Models `MatchString` for the unanchored template `(?mi)(%s)`:
some alternative matches at some position. -/
def matchStringN (toks : List (List Char)) (s : List Char) : Bool :=
  (List.range (s.length + 1)).any (fun p => (firstTokAtN toks s p).isSome)

/-- Rune-level model of `removeAccents` (server/utils.go:12-20, the
chain NFD → strip combining marks → NFC) on common precomposed Latin
letters; other runes are unchanged. -/
def removeAccentChar (c : Char) : Char :=
  if c = 'â' || c = 'á' || c = 'à' || c = 'ä' || c = 'ã' then 'a'
  else if c = 'é' || c = 'è' || c = 'ê' || c = 'ë' then 'e'
  else if c = 'î' || c = 'í' || c = 'ì' || c = 'ï' then 'i'
  else if c = 'ô' || c = 'ó' || c = 'ò' || c = 'ö' || c = 'õ' then 'o'
  else if c = 'û' || c = 'ú' || c = 'ù' || c = 'ü' then 'u'
  else if c = 'ç' then 'c'
  else if c = 'ñ' then 'n'
  else c

/-- Models `removeAccents` on a rune list. -/
def removeAccentsL (s : List Char) : List Char := s.map removeAccentChar

/-- The fields of `model.User` that the plugin consults. -/
structure User where
  id : String
  username : String
  nickname : String
  email : String
  createAt : Int
  deleteAt : Int
  roles : String
deriving DecidableEq

/-- The zero `model.User{}` value. -/
def emptyUser : User := ⟨"", "", "", "", 0, 0, ""⟩

/-- The fields of `model.Post` that the plugin consults. -/
structure Post where
  userId : String
  channelId : String
  rootId : String
  message : String
deriving DecidableEq

/-- The plugin `configuration` struct (server/configuration.go:27-43),
with its fifteen public fields. -/
structure Configuration where
  badDomainsList : String
  badUsernamesList : String
  builtinBadDomains : Bool
  badWordsList : String
  blockNewUserPM : Bool
  blockNewUserPMTime : String
  blockNewUserLinks : Bool
  blockNewUserLinksTime : String
  blockNewUserImages : Bool
  blockNewUserImagesTime : String
  censorCharacter : String
  excludeBots : Bool
  rejectPosts : Bool
  warningMessage : String
  adminUsername : String
deriving DecidableEq

/-- `reflect.ValueOf(*configuration).NumField()` for the struct above. -/
def numFieldsConfiguration : Nat := 15

/-- An all-empty `Configuration` value, for concrete instances. -/
def emptyConfiguration : Configuration :=
  ⟨"", "", false, "", false, "", false, "", false, "", "", false, false, "", ""⟩

/-- A Go pointer to a configuration: an address plus the pointed-to
value; `==` on Go pointers compares addresses. -/
structure ConfigPtr where
  addr : Nat
  value : Configuration
deriving DecidableEq

/-- Models `setConfiguration` (server/configuration.go:81-97).  The
result `none` models the panic `"setConfiguration called with the
existing configuration"`; `some st` is the new value of
`p.configuration`.  A `nil` argument or current pointer is `none` on
the inside. -/
def setConfiguration (current arg : Option ConfigPtr) : Option (Option ConfigPtr) :=
  match arg, current with
  | some a, some c =>
    if a.addr = c.addr then
      if numFieldsConfiguration = 0 then some current else none
    else some arg
  | _, _ => some arg

/-- Models `strings.Repeat(s, n)`. -/
def repeatL (s : List Char) : Nat → List Char
  | 0 => []
  | n + 1 => s ++ repeatL s n

/-- Models `strings.Join(xs, sep)`. -/
def joinSep (sep : List Char) : List (List Char) → List Char
  | [] => []
  | [x] => x
  | x :: y :: xs => x ++ sep ++ joinSep sep (y :: xs)

/-- Scanning loop of `strings.ReplaceAll` (leftmost, non-overlapping);
the fuel is the rune length of the scanned text, and every step
consumes at least one rune.  An empty pattern is left unreplaced (Go
would interleave the replacement; the detected words here are never
empty). -/
def replaceAux (pat rep : List Char) : Nat → List Char → List Char
  | 0, s => s
  | fuel + 1, s =>
    match s with
    | [] => []
    | c :: cs =>
      if !pat.isEmpty && pat.isPrefixOf (c :: cs) then
        rep ++ replaceAux pat rep fuel ((c :: cs).drop pat.length)
      else c :: replaceAux pat rep fuel cs

/-- Models `strings.ReplaceAll(s, pat, rep)`. -/
def replaceAllL (s pat rep : List Char) : List Char := replaceAux pat rep s.length s

/-- Models `FilterPostBadWords` (server/user.go:363-391): the compiled
bad-words regex is represented by its token list (`wordListTokens` of
`BadWordsList`, matched with the word-boundary template); the
de-accented message is matched, and in censor mode each detected word
is replaced in the ORIGINAL message by the censor character repeated to
the word's byte length.  The ephemeral notification side effect is not
modeled. -/
def filterPostBadWords (badWordToks : List (List Char)) (rejectPosts : Bool)
    (censorCharacter : String) (post : Post) : Option Post × String :=
  let noAcc := removeAccentsL post.message.data
  if !matchStringB badWordToks noAcc then (some post, "")
  else
    let detected := findAllB badWordToks noAcc
    if rejectPosts then
      (none, "Profane word not allowed: " ++ String.mk (joinSep [',', ' '] detected))
    else
      (some { post with
              message := String.mk (detected.foldl
                (fun m w => replaceAllL m w (repeatL censorCharacter.data (goLenL w)))
                post.message.data) },
       "")

/-- Models `EndsWith` (server/utils.go:74-82): some element of `search`
is a suffix of `target`. -/
def EndsWith (search : List String) (target : String) : Bool :=
  search.any (fun s => s.data.isSuffixOf target.data)

/-- The plugin state consulted by the moderation rules.  A compiled
`*regexp.Regexp` is abstracted to its match function; `none` models a
nil regex pointer. -/
structure ModerationCtx where
  builtinBadDomains : Bool
  badDomainsList : List String
  badDomainsRegex : Option (String → Bool)
  badUsernamesRegex : Option (String → Bool)

/-- Models `checkBadEmail` (server/configuration.go:390-399): `true`
means an error is returned (the user is flagged).  Both the builtin
suffix check and the regex are applied to the FULL email string. -/
def checkBadEmail (ctx : ModerationCtx) (email : String) : Bool :=
  if ctx.builtinBadDomains && EndsWith ctx.badDomainsList email then true
  else
    match ctx.badDomainsRegex with
    | some m => m email
    | none => false

/-- Models `checkBadUsername` (server/configuration.go:401-406):
the regex is tried on the username and on the nickname. -/
def checkBadUsername (ctx : ModerationCtx) (user : User) : Bool :=
  match ctx.badUsernamesRegex with
  | some m => m user.username || m user.nickname
  | none => false

/-- Models `UserWillLogIn` (server/user.go:395-415): the returned
string is the rejection message, and `""` allows the login. -/
def UserWillLogIn (ctx : ModerationCtx) (user : User) : String :=
  if user.deleteAt > 0 then
    "Your account has been deactivated due to policy violations. Please contact an administrator."
  else if checkBadUsername ctx user then
    "Your account violates community guidelines. Please contact an administrator."
  else if checkBadEmail ctx user.email then
    "Your account violates community guidelines. Please contact an administrator."
  else ""

/-- Models `shouldBlockUserPost` (server/user.go:843-874).
`apiAvailable` models `p.API != nil`, and the author resolution
`GetUserByID` is abstracted to its result (`none` = error). -/
def shouldBlockUserPost (ctx : ModerationCtx) (apiAvailable : Bool)
    (fetched : Option User) (userID : String) : Bool :=
  if userID = "" || !apiAvailable then false
  else
    match fetched with
    | none => false
    | some user =>
      if user.deleteAt > 0 then true
      else if checkBadUsername ctx user then true
      else if checkBadEmail ctx user.email then true
      else false

/-- Naive substring test, models `strings.Contains`. -/
def strContainsL (s sub : List Char) : Bool :=
  (List.range (s.length + 1)).any (fun p => sub.isPrefixOf (s.drop p))

/-- Models `isSystemAdmin` (server/user.go:811-813). -/
def isSystemAdmin (user : User) : Bool :=
  user.roles == "system_admin" || strContainsL user.roles.data "system_admin".data

/-- Models `isUserTooNew` (server/user.go:771-789), returning the
triple (isTooNew, errorMessage, error).  Times are nanosecond counts:
`user.createAt` is in milliseconds (`time.UnixMilli`), and
`time.Since(createdAt) < duration` compares nanoseconds.  The Go
library functions `time.ParseDuration` (`none` = parse error) and
`Duration.String()` are abstracted as `parse` and `fmtDur`. -/
def isUserTooNew (parse : String → Option Int) (fmtDur : Int → String) (nowNs : Int)
    (user : User) (blockDuration contentType : String) : Bool × String × Option String :=
  if blockDuration = "-1" then
    (true, "New user not allowed to post " ++ contentType ++ " indefinitely.", none)
  else
    match parse blockDuration with
    | none => (false, "", some "failed to parse duration")
    | some d =>
      if nowNs - user.createAt * 1000000 < d then
        (true, "New user not allowed to post " ++ contentType ++ " for " ++ fmtDur d ++ ".", none)
      else (false, "", none)

/-- Models `filterNewUserContent` (server/user.go:816-838): author
fetch abstracted to its result (`none` = `getUserAndHandleError`
failure); the error branch routes through `handleFilterError`, which
returns `nil` plus the error text.  Ephemeral notices are not
modeled. -/
def filterNewUserContent (fetched : Option User) (parse : String → Option Int)
    (fmtDur : Int → String) (nowNs : Int) (post : Post)
    (contentType blockDuration userMessage : String) : Option Post × String :=
  match fetched with
  | none => (none, "Failed to get user")
  | some user =>
    if isSystemAdmin user then (some post, "")
    else
      match isUserTooNew parse fmtDur nowNs user blockDuration contentType with
      | (_, _, some e) => (none, e)
      | (true, msg, none) => (none, msg)
      | (false, _, none) => (some post, "")

/-- Models `validateDurationConfig` (server/configuration.go:164-183):
`true` models a nil error (the value is accepted). -/
def validateDurationConfig (parse : String → Option Int) (duration : String) : Bool :=
  if duration = "" then true
  else if duration = "-1" then true
  else (parse duration).isSome

/-- One entry of the LRU cache's map. -/
structure CacheEntry where
  key : String
  user : User
  lastAccess : Nat
deriving DecidableEq

/-- The `LRUCache` (server/user.go:10-26).  The Go map is an
association list whose order stands for the map's iteration order, and
`time.Now()` is the logical clock `clock`, advanced at every operation
so successive operations carry distinct access times. -/
structure LRUCache where
  capacity : Nat
  entries : List CacheEntry
  clock : Nat
deriving DecidableEq

/-- Models `NewLRUCache`. -/
def newLRUCache (capacity : Nat) : LRUCache := ⟨capacity, [], 0⟩

/-- The loop body of `evictOldest`: keep the current candidate unless
it is still the zero value (`oldestKey == ""`) or a strictly older
entry is seen. -/
def scanStep (acc : String × Nat) (e : CacheEntry) : String × Nat :=
  if acc.1 = "" || e.lastAccess < acc.2 then (e.key, e.lastAccess) else acc

/-- The scan of `evictOldest` over the map. -/
def scanOldest (es : List CacheEntry) : String × Nat := es.foldl scanStep ("", 0)

/-- Models `evictOldest` (server/user.go:72-86): delete the scanned
key, unless the scan ended on the zero value. -/
def evictOldest (es : List CacheEntry) : List CacheEntry :=
  if (scanOldest es).1 ≠ "" then es.filter (fun e => e.key != (scanOldest es).1) else es

/-- Models `LRUCache.Get` (server/user.go:28-45): on a hit the entry's
access time is refreshed.  Returns ((user, found), new state). -/
def cacheGet (c : LRUCache) (k : String) : (User × Bool) × LRUCache :=
  match c.entries.find? (fun e => e.key == k) with
  | none => ((emptyUser, false), { c with clock := c.clock + 1 })
  | some e =>
    ((e.user, true),
     { c with
       entries := c.entries.map
         (fun e2 => if e2.key == k then { e2 with lastAccess := c.clock } else e2),
       clock := c.clock + 1 })

/-- Models `LRUCache.Put` (server/user.go:47-68): update in place when
the key exists; otherwise evict the oldest entry when at capacity, then
append. -/
def cachePut (c : LRUCache) (k : String) (u : User) : LRUCache :=
  if c.entries.any (fun e => e.key == k) then
    { c with
      entries := c.entries.map
        (fun e => if e.key == k then { e with user := u, lastAccess := c.clock } else e),
      clock := c.clock + 1 }
  else
    { c with
      entries :=
        (if c.capacity ≤ c.entries.length then evictOldest c.entries else c.entries)
          ++ [⟨k, u, c.clock⟩],
      clock := c.clock + 1 }

/-- Models `LRUCache.Remove` (server/user.go:89-94). -/
def cacheRemove (c : LRUCache) (k : String) : LRUCache :=
  { c with entries := c.entries.filter (fun e => e.key != k), clock := c.clock + 1 }

/-- One cache operation, for stating invariants over arbitrary
operation sequences. -/
inductive CacheOp where
  | get (k : String)
  | put (k : String) (u : User)
  | remove (k : String)
deriving DecidableEq

/-- Run one operation (the value returned by `Get` is dropped). -/
def applyOp (c : LRUCache) : CacheOp → LRUCache
  | .get k => (cacheGet c k).2
  | .put k u => cachePut c k u
  | .remove k => cacheRemove c k

/-- Run a sequence of operations. -/
def applyOps (c : LRUCache) (ops : List CacheOp) : LRUCache := ops.foldl applyOp c

/-- Whether an operation avoids `Put` with the empty-string key. -/
def putKeyOK : CacheOp → Bool
  | .put k _ => k != ""
  | _ => true

/-- The capacity-and-keys invariant of the cache model. -/
def GoodCache (c : LRUCache) : Prop :=
  (∀ e ∈ c.entries, e.key ≠ "") ∧ c.entries.length ≤ c.capacity

/-- Put a run of keys (with one fixed user value) in order. -/
def putAll (u : User) (c : LRUCache) (ks : List String) : LRUCache :=
  ks.foldl (fun c2 k => cachePut c2 k u) c

/-- The keys stored in the cache, in model order. -/
def keysOf (es : List CacheEntry) : List String := es.map (fun e => e.key)

/-- The entries produced by putting `ks` in order with clock starting
at `n`: key `ks[i]` is stamped `n + i`. -/
def stampFrom (u : User) (n : Nat) : List String → List CacheEntry
  | [] => []
  | k :: ks => ⟨k, u, n⟩ :: stampFrom u (n + 1) ks

/-- Everything after the first `@` of an email. -/
def afterFirstAt : List Char → Option (List Char)
  | [] => none
  | c :: cs => if c = '@' then some cs else afterFirstAt cs

/-- The spec's "domain substring" of an email: everything after the
first `@`, `none` when there is no `@`. -/
def emailDomain (email : String) : Option String :=
  (afterFirstAt email.data).map String.mk

/-- The CLAIMED bad-email rule, written from the spec's words (for
comparison with `checkBadEmail`, which is translated from the source):
builtin path = exact equality of the domain substring with a set
member; regex path = matching the domain substring only; an email with
no `@` never matches. -/
def specIsBadEmail (ctx : ModerationCtx) (email : String) : Bool :=
  match emailDomain email with
  | none => false
  | some dom =>
    (ctx.builtinBadDomains && ctx.badDomainsList.any (fun d => d == dom)) ||
    (match ctx.badDomainsRegex with
     | some m => m dom
     | none => false)

/-- A concrete stand-in for `time.ParseDuration` used by witnesses:
parses exactly `"24h"` (to nanoseconds); everything else — including
the empty string, as in Go — fails. -/
def parseOnly24h : String → Option Int :=
  fun s => if s = "24h" then some 86400000000000 else none

/-- A concrete stand-in for `Duration.String()` used by witnesses. -/
def fmtDurConst : Int → String := fun _ => "24h0m0s"

/-- A concrete non-admin user for witnesses. -/
def userPlain : User := ⟨"u1", "alice", "Alice", "alice@example.com", 1, 0, "system_user"⟩

/-- A concrete post for witnesses. -/
def postPlain : Post := ⟨"u1", "c1", "", "hello"⟩

/-! ## Lemmas -/

theorem one_le_goCharSize (c : Char) : 1 ≤ goCharSize c := by
  unfold goCharSize
  split
  · omega
  · split
    · omega
    · split <;> omega

theorem goLenL_append (a b : List Char) : goLenL (a ++ b) = goLenL a + goLenL b := by
  simp [goLenL]

theorem goLenL_pos {l : List Char} (h : l ≠ []) : 0 < goLenL l := by
  cases l with
  | nil => exact absurd rfl h
  | cons c cs =>
    have hc := one_le_goCharSize c
    simp only [goLenL, List.map_cons, List.sum_cons]
    omega

/-- In a byte-length-descending list, `find?` never returns something
shorter than a member that satisfies the predicate. -/
theorem find_sorted_ge {toks : List (List Char)} {P : List Char → Bool} {t : List Char}
    (hs : List.Sorted lenGE toks) (ht : t ∈ toks) (hPt : P t = true) :
    ∃ m, toks.find? P = some m ∧ goLenL t ≤ goLenL m := by
  induction toks with
  | nil => cases ht
  | cons h rest ih =>
    rcases List.sorted_cons.mp hs with ⟨hord, hrest⟩
    by_cases hPh : P h = true
    · refine ⟨h, List.find?_cons_of_pos _ hPh, ?_⟩
      rcases List.mem_cons.mp ht with rfl | htr
      · exact le_refl _
      · exact hord t htr
    · have htr : t ∈ rest := by
        rcases List.mem_cons.mp ht with rfl | htr
        · exact absurd hPt hPh
        · exact htr
      obtain ⟨m, hm, hlen⟩ := ih hrest htr
      refine ⟨m, ?_, hlen⟩
      rw [List.find?_cons_of_neg _ hPh]
      exact hm

theorem scanStep_key_ne {acc : String × Nat} {e : CacheEntry}
    (hacc : acc.1 ≠ "") (he : e.key ≠ "") : (scanStep acc e).1 ≠ "" := by
  unfold scanStep
  split
  · exact he
  · exact hacc

theorem scan_foldl_key_ne : ∀ (es : List CacheEntry) (acc : String × Nat),
    acc.1 ≠ "" → (∀ e ∈ es, e.key ≠ "") → (es.foldl scanStep acc).1 ≠ "" := by
  intro es
  induction es with
  | nil => intro acc h _; simpa using h
  | cons e es ih =>
    intro acc h hall
    rw [List.foldl_cons]
    exact ih _ (scanStep_key_ne h (hall e (List.mem_cons_self e es)))
      (fun x hx => hall x (List.mem_cons_of_mem e hx))

theorem scan_cases : ∀ (es : List CacheEntry) (acc : String × Nat),
    es.foldl scanStep acc = acc ∨ ∃ e ∈ es, es.foldl scanStep acc = (e.key, e.lastAccess) := by
  intro es
  induction es with
  | nil => intro acc; left; rfl
  | cons e es ih =>
    intro acc
    rw [List.foldl_cons]
    rcases ih (scanStep acc e) with h | ⟨e2, he2, h⟩
    · rw [h]
      unfold scanStep
      split
      · right; exact ⟨e, List.mem_cons_self e es, rfl⟩
      · left; rfl
    · right; exact ⟨e2, List.mem_cons_of_mem e he2, h⟩

/-- With a nonempty accumulator candidate that is already minimal, the
scan keeps it. -/
theorem scan_min : ∀ (es : List CacheEntry) (acc : String × Nat), acc.1 ≠ "" →
    (∀ e ∈ es, acc.2 ≤ e.lastAccess) → es.foldl scanStep acc = acc := by
  intro es
  induction es with
  | nil => intro acc _ _; rfl
  | cons e es ih =>
    intro acc hacc hmin
    rw [List.foldl_cons]
    have hstep : scanStep acc e = acc := by
      unfold scanStep
      have h1 : ¬ (e.lastAccess < acc.2) := Nat.not_lt.mpr (hmin e (List.mem_cons_self e es))
      simp [hacc, h1]
    rw [hstep]
    exact ih acc hacc (fun x hx => hmin x (List.mem_cons_of_mem e hx))

/-- On a nonempty map whose keys are all nonempty, the scan of
`evictOldest` ends on a key that is present in the map. -/
theorem scanOldest_key_mem (es : List CacheEntry) (hne : es ≠ [])
    (hk : ∀ e ∈ es, e.key ≠ "") :
    (scanOldest es).1 ≠ "" ∧ ∃ e ∈ es, e.key = (scanOldest es).1 := by
  cases es with
  | nil => exact absurd rfl hne
  | cons e es =>
    unfold scanOldest
    rw [List.foldl_cons]
    have hstep : scanStep ("", 0) e = (e.key, e.lastAccess) := by
      unfold scanStep; simp
    rw [hstep]
    constructor
    · exact scan_foldl_key_ne es _ (hk e (List.mem_cons_self e es))
        (fun x hx => hk x (List.mem_cons_of_mem e hx))
    · rcases scan_cases es (e.key, e.lastAccess) with h | ⟨e2, he2, h⟩
      · rw [h]; exact ⟨e, List.mem_cons_self e es, rfl⟩
      · rw [h]; exact ⟨e2, List.mem_cons_of_mem e he2, rfl⟩

/-- On a nonempty map whose keys are all nonempty, `evictOldest` does
remove an entry. -/
theorem evictOldest_length_lt (es : List CacheEntry) (hne : es ≠ [])
    (hk : ∀ e ∈ es, e.key ≠ "") : (evictOldest es).length < es.length := by
  obtain ⟨h1, e, he, hkey⟩ := scanOldest_key_mem es hne hk
  unfold evictOldest
  rw [if_pos h1]
  exact List.length_filter_lt_length_iff_exists.mpr ⟨e, he, by simp [hkey]⟩

theorem evictOldest_subset {es : List CacheEntry} {e : CacheEntry}
    (h : e ∈ evictOldest es) : e ∈ es := by
  unfold evictOldest at h
  split at h
  · exact List.mem_of_mem_filter h
  · exact h

theorem stampFrom_length (u : User) : ∀ (n : Nat) (ks : List String),
    (stampFrom u n ks).length = ks.length := by
  intro n ks
  induction ks generalizing n with
  | nil => rfl
  | cons k ks ih => simp [stampFrom, ih]

theorem stampFrom_keys (u : User) : ∀ (n : Nat) (ks : List String),
    keysOf (stampFrom u n ks) = ks := by
  intro n ks
  induction ks generalizing n with
  | nil => rfl
  | cons k ks ih => simp [stampFrom, keysOf] at ih ⊢; exact ih (n + 1)

theorem stampFrom_mem {u : User} : ∀ {n : Nat} {ks : List String} {e : CacheEntry},
    e ∈ stampFrom u n ks → e.key ∈ ks ∧ n ≤ e.lastAccess := by
  intro n ks
  induction ks generalizing n with
  | nil => intro e he; cases he
  | cons k ks ih =>
    intro e he
    rcases List.mem_cons.mp he with rfl | htail
    · exact ⟨List.mem_cons_self k ks, le_refl n⟩
    · obtain ⟨h1, h2⟩ := ih htail
      exact ⟨List.mem_cons_of_mem k h1, by omega⟩

/-- Updating-in-place by a key that is absent leaves the map
unchanged. -/
theorem map_refresh_noop (k : String) (f : CacheEntry → CacheEntry) :
    ∀ (es : List CacheEntry), (∀ e ∈ es, e.key ≠ k) →
    es.map (fun e => if e.key == k then f e else e) = es := by
  intro es
  induction es with
  | nil => intro _; rfl
  | cons e es ih =>
    intro h
    have hek : ¬ ((e.key == k) = true) := by
      simp only [beq_iff_eq]
      exact h e (List.mem_cons_self e es)
    simp only [List.map_cons, if_neg hek]
    exact congrArg (List.cons e) (ih (fun x hx => h x (List.mem_cons_of_mem e hx)))

/-- Filtering out a key that is absent leaves the map unchanged. -/
theorem filter_ne_noop (k : String) :
    ∀ (es : List CacheEntry), (∀ e ∈ es, e.key ≠ k) →
    es.filter (fun e => e.key != k) = es := by
  intro es h
  apply List.filter_eq_self.mpr
  intro e he
  simpa using h e he

/-- The first phase of the scenarios: putting fresh keys into a cache
below capacity appends them, stamped with consecutive clock values. -/
theorem putAll_fresh (u : User) : ∀ (ks : List String) (cap : Nat) (es : List CacheEntry) (n : Nat),
    (∀ k ∈ ks, ∀ e ∈ es, e.key ≠ k) → ks.Nodup →
    es.length + ks.length ≤ cap →
    putAll u ⟨cap, es, n⟩ ks = ⟨cap, es ++ stampFrom u n ks, n + ks.length⟩ := by
  intro ks
  induction ks with
  | nil => intro cap es n _ _ _; simp [putAll, stampFrom]
  | cons k ks ih =>
    intro cap es n hfresh hnd hlen
    have hex : es.any (fun e => e.key == k) = false := by
      rw [List.any_eq_false]
      intro e he
      simp only [beq_iff_eq]
      exact fun hc => hfresh k (List.mem_cons_self k ks) e he hc
    have hlt : ¬ (cap ≤ es.length) := by
      simp only [List.length_cons] at hlen
      omega
    have hput : cachePut ⟨cap, es, n⟩ k u = ⟨cap, es ++ [⟨k, u, n⟩], n + 1⟩ := by
      unfold cachePut
      rw [hex]
      simp [hlt]
    have hstep : putAll u ⟨cap, es, n⟩ (k :: ks) = putAll u (cachePut ⟨cap, es, n⟩ k u) ks := rfl
    rw [hstep, hput]
    have hf2 : ∀ k2 ∈ ks, ∀ e ∈ es ++ [(⟨k, u, n⟩ : CacheEntry)], e.key ≠ k2 := by
      intro k2 hk2 e he
      rcases List.mem_append.mp he with hin | hnew
      · exact hfresh k2 (List.mem_cons_of_mem k hk2) e hin
      · have he2 : e = ⟨k, u, n⟩ := by simpa using hnew
        subst he2
        intro hc
        have hc2 : k = k2 := hc
        exact (List.nodup_cons.mp hnd).1 (by rw [hc2]; exact hk2)
    have hlen2 : (es ++ [(⟨k, u, n⟩ : CacheEntry)]).length + ks.length ≤ cap := by
      simp only [List.length_append, List.length_cons, List.length_nil] at hlen ⊢
      omega
    rw [ih cap _ _ hf2 (List.nodup_cons.mp hnd).2 hlen2]
    simp only [LRUCache.mk.injEq, true_and]
    constructor
    · simp [stampFrom, List.append_assoc]
    · simp only [List.length_cons]
      omega

/-- `evictOldest` on freshly stamped entries removes exactly the first
(oldest) one, when its key is nonempty and unduplicated. -/
theorem evict_stamp (u : User) (k0 : String) (rest : List String) (n : Nat)
    (hk0 : k0 ≠ "") (hrest : k0 ∉ rest) :
    evictOldest (⟨k0, u, n⟩ :: stampFrom u (n + 1) rest) = stampFrom u (n + 1) rest := by
  have hscan : scanOldest (⟨k0, u, n⟩ :: stampFrom u (n + 1) rest) = (k0, n) := by
    unfold scanOldest
    rw [List.foldl_cons]
    have h1 : scanStep ("", 0) ⟨k0, u, n⟩ = (k0, n) := by unfold scanStep; simp
    rw [h1]
    exact scan_min _ _ hk0 (fun e he => by have := (stampFrom_mem he).2; omega)
  unfold evictOldest
  rw [hscan]
  rw [if_pos hk0]
  rw [List.filter_cons]
  have hself : (CacheEntry.key ⟨k0, u, n⟩ != k0) = false := by simp
  rw [hself]
  simp only [Bool.false_eq_true, if_neg, not_false_eq_true]
  exact filter_ne_noop k0 _ (fun e he => fun hc => hrest (hc ▸ (stampFrom_mem he).1))

/-- The scan after the head entry has been refreshed to a late time:
the second entry (stamped 1) is the oldest. -/
theorem scan_refreshed (u : User) (k0 k1 : String) (kmid : List String) (n : Nat)
    (hk0 : k0 ≠ "") (hk1 : k1 ≠ "") (hn : 1 < n) :
    scanOldest (⟨k0, u, n⟩ :: ⟨k1, u, 1⟩ :: stampFrom u 2 kmid) = (k1, 1) := by
  unfold scanOldest
  rw [List.foldl_cons, List.foldl_cons]
  have h1 : scanStep ("", 0) ⟨k0, u, n⟩ = (k0, n) := by unfold scanStep; simp
  have h2 : scanStep (k0, n) ⟨k1, u, 1⟩ = (k1, 1) := by
    unfold scanStep
    simp [hk0, hn]
  rw [h1, h2]
  exact scan_min _ _ hk1 (fun e he => by have := (stampFrom_mem he).2; omega)

/-- `evictOldest` after the head entry has been refreshed to a late
time removes exactly the second (now oldest) entry. -/
theorem evict_refreshed (u : User) (k0 k1 : String) (kmid : List String) (n m : Nat)
    (hk0 : k0 ≠ "") (hk1 : k1 ≠ "") (hmn : m < n) (h01 : k0 ≠ k1) (h1m : k1 ∉ kmid) :
    evictOldest (⟨k0, u, n⟩ :: ⟨k1, u, m⟩ :: stampFrom u (m + 1) kmid) =
      ⟨k0, u, n⟩ :: stampFrom u (m + 1) kmid := by
  have hscan : scanOldest (⟨k0, u, n⟩ :: ⟨k1, u, m⟩ :: stampFrom u (m + 1) kmid) = (k1, m) := by
    unfold scanOldest
    rw [List.foldl_cons, List.foldl_cons]
    have h1 : scanStep ("", 0) ⟨k0, u, n⟩ = (k0, n) := by unfold scanStep; simp
    have h2 : scanStep (k0, n) ⟨k1, u, m⟩ = (k1, m) := by
      unfold scanStep
      simp [hk0, hmn]
    rw [h1, h2]
    exact scan_min _ _ hk1 (fun e he => by have := (stampFrom_mem he).2; omega)
  unfold evictOldest
  rw [hscan]
  rw [if_pos hk1]
  rw [List.filter_cons, List.filter_cons]
  have hh0 : (CacheEntry.key ⟨k0, u, n⟩ != (k1, m).1) = true := by simpa using h01
  have hh1 : (CacheEntry.key ⟨k1, u, m⟩ != (k1, m).1) = false := by simp
  rw [hh0, hh1]
  simp only [if_true, Bool.false_eq_true, if_neg, not_false_eq_true]
  exact congrArg (List.cons _)
    (filter_ne_noop k1 _ (fun e he => fun hc => h1m (hc ▸ (stampFrom_mem he).1)))

/-- `cacheGet` hitting the head entry refreshes its access time to the
current clock and leaves the rest untouched. -/
theorem cacheGet_head (cap n m : Nat) (k0 : String) (u0 : User) (rest : List CacheEntry)
    (hrest : ∀ e ∈ rest, e.key ≠ k0) :
    cacheGet ⟨cap, ⟨k0, u0, m⟩ :: rest, n⟩ k0 =
      ((u0, true), ⟨cap, ⟨k0, u0, n⟩ :: rest, n + 1⟩) := by
  unfold cacheGet
  have hfind : ((⟨k0, u0, m⟩ : CacheEntry) :: rest).find? (fun e => e.key == k0) =
      some ⟨k0, u0, m⟩ := List.find?_cons_of_pos _ (by simp)
  simp only [hfind, List.map_cons]
  rw [map_refresh_noop k0 _ rest hrest]
  simp

/-- `cachePut` of a fresh key on a full cache evicts, then appends the
new entry stamped with the current clock. -/
theorem cachePut_evict (cap n : Nat) (k : String) (u : User) (es : List CacheEntry)
    (hany : es.any (fun e => e.key == k) = false) (hfull : cap ≤ es.length) :
    cachePut ⟨cap, es, n⟩ k u = ⟨cap, evictOldest es ++ [⟨k, u, n⟩], n + 1⟩ := by
  unfold cachePut
  simp [hany, hfull]

theorem keysOf_append (a b : List CacheEntry) : keysOf (a ++ b) = keysOf a ++ keysOf b :=
  List.map_append _ _ _

theorem keysOf_cons (e : CacheEntry) (l : List CacheEntry) :
    keysOf (e :: l) = e.key :: keysOf l := rfl

theorem goodCache_get (c : LRUCache) (k : String) (hgood : GoodCache c) :
    GoodCache ((cacheGet c k).2) ∧ ((cacheGet c k).2).capacity = c.capacity := by
  obtain ⟨hkeys, hlen⟩ := hgood
  unfold GoodCache cacheGet
  cases hf : c.entries.find? (fun e => e.key == k) with
  | none => exact ⟨⟨hkeys, hlen⟩, rfl⟩
  | some e =>
    refine ⟨⟨?_, by simpa using hlen⟩, rfl⟩
    intro e2 he2
    simp only [List.mem_map] at he2
    obtain ⟨e1, he1, rfl⟩ := he2
    have h1 := hkeys e1 he1
    split <;> simpa using h1

theorem goodCache_put (c : LRUCache) (k : String) (u : User) (hcap : 1 ≤ c.capacity)
    (hgood : GoodCache c) (hk : k ≠ "") :
    GoodCache (cachePut c k u) ∧ (cachePut c k u).capacity = c.capacity := by
  obtain ⟨hkeys, hlen⟩ := hgood
  unfold GoodCache cachePut
  by_cases hex : c.entries.any (fun e => e.key == k) = true
  · rw [if_pos hex]
    refine ⟨⟨?_, by simpa using hlen⟩, rfl⟩
    intro e2 he2
    simp only [List.mem_map] at he2
    obtain ⟨e1, he1, rfl⟩ := he2
    have h1 := hkeys e1 he1
    split <;> simpa using h1
  · rw [if_neg hex]
    by_cases hfull : c.capacity ≤ c.entries.length
    · rw [if_pos hfull]
      have hne : c.entries ≠ [] := by
        intro h
        rw [h] at hfull
        simp only [List.length_nil] at hfull
        omega
      have hshrink := evictOldest_length_lt c.entries hne hkeys
      refine ⟨⟨?_, ?_⟩, rfl⟩
      · intro e2 he2
        simp only [List.mem_append] at he2
        rcases he2 with h | h
        · exact hkeys e2 (evictOldest_subset h)
        · have he3 : e2 = ⟨k, u, c.clock⟩ := by simpa using h
          subst he3
          exact hk
      · simp only [List.length_append, List.length_cons, List.length_nil]
        omega
    · rw [if_neg hfull]
      refine ⟨⟨?_, ?_⟩, rfl⟩
      · intro e2 he2
        simp only [List.mem_append] at he2
        rcases he2 with h | h
        · exact hkeys e2 h
        · have he3 : e2 = ⟨k, u, c.clock⟩ := by simpa using h
          subst he3
          exact hk
      · simp only [List.length_append, List.length_cons, List.length_nil]
        omega

theorem goodCache_remove (c : LRUCache) (k : String) (hgood : GoodCache c) :
    GoodCache (cacheRemove c k) ∧ (cacheRemove c k).capacity = c.capacity := by
  obtain ⟨hkeys, hlen⟩ := hgood
  unfold GoodCache cacheRemove
  refine ⟨⟨?_, ?_⟩, rfl⟩
  · intro e2 he2
    exact hkeys e2 (List.mem_of_mem_filter he2)
  · exact le_trans (List.length_filter_le _ _) hlen

theorem applyOps_good : ∀ (ops : List CacheOp) (c : LRUCache), 1 ≤ c.capacity → GoodCache c →
    (∀ op ∈ ops, putKeyOK op = true) →
    GoodCache (applyOps c ops) ∧ (applyOps c ops).capacity = c.capacity := by
  intro ops
  induction ops with
  | nil => intro c _ hg _; exact ⟨hg, rfl⟩
  | cons op ops ih =>
    intro c hcap hg hput
    have h1 : GoodCache (applyOp c op) ∧ (applyOp c op).capacity = c.capacity := by
      cases op with
      | get k => exact goodCache_get c k hg
      | put k u =>
        have hk : k ≠ "" := by
          have h2 := hput _ (List.mem_cons_self _ _)
          simpa [putKeyOK] using h2
        exact goodCache_put c k u hcap hg hk
      | remove k => exact goodCache_remove c k hg
    have hstep : applyOps c (op :: ops) = applyOps (applyOp c op) ops := rfl
    rw [hstep]
    have h3 := ih (applyOp c op) (by rw [h1.2]; exact hcap) h1.1
      (fun o ho => hput o (List.mem_cons_of_mem _ ho))
    exact ⟨h3.1, by rw [h3.2, h1.2]⟩

/-! ## Claims -/

/-- Claim C1, counterexample.  The claim predicts, via its own
domain-extraction rule (`specIsBadEmail`), that `user@sub.bad.com` is
NOT flagged by the builtin entry `bad.com`; the source's
`checkBadEmail` (suffix match on the full email) DOES flag it.  The
claim likewise predicts `user@lookslikeabaddomain.com` is not flagged
by a bad-domain rule for exactly `baddomain.com`; `checkBadEmail`
(regex over the full email) DOES flag it. -/
theorem claim_C1_counterexample :
    specIsBadEmail ⟨true, ["bad.com"], none, none⟩ "user@sub.bad.com" = false ∧
    checkBadEmail ⟨true, ["bad.com"], none, none⟩ "user@sub.bad.com" = true ∧
    checkBadEmail
      ⟨false, [], some (fun s => matchStringN (wordListTokens "baddomain.com".data) s.data), none⟩
      "user@lookslikeabaddomain.com" = true :=
  ⟨by decide, by decide, by decide⟩

/-- Claim C1, amended: the bad-email check operates on the FULL email
string: the builtin path flags the user iff some builtin entry is a
suffix of the whole email (so `user@sub.bad.com` IS flagged by builtin
entry `bad.com`), and the custom bad-domain regex is matched against
the whole email string (so an unanchored rule for `baddomain.com` DOES
flag `user@lookslikeabaddomain.com`). -/
theorem claim_C1_amended :
    (∀ (ctx : ModerationCtx) (email : String),
      checkBadEmail ctx email = true ↔
        ((ctx.builtinBadDomains = true ∧
            ∃ d ∈ ctx.badDomainsList, d.data.isSuffixOf email.data = true) ∨
         (∃ m, ctx.badDomainsRegex = some m ∧ m email = true))) ∧
    checkBadEmail ⟨true, ["bad.com"], none, none⟩ "user@sub.bad.com" = true ∧
    checkBadEmail
      ⟨false, [], some (fun s => matchStringN (wordListTokens "baddomain.com".data) s.data), none⟩
      "user@lookslikeabaddomain.com" = true := by
  refine ⟨?_, by decide, by decide⟩
  intro ctx email
  unfold checkBadEmail
  by_cases hb : (ctx.builtinBadDomains && EndsWith ctx.badDomainsList email) = true
  · rw [if_pos hb]
    rcases Bool.and_eq_true_iff.mp hb with ⟨hb1, hb2⟩
    unfold EndsWith at hb2
    simp only [List.any_eq_true] at hb2
    exact ⟨fun _ => Or.inl ⟨hb1, hb2⟩, fun _ => rfl⟩
  · rw [if_neg hb]
    constructor
    · intro h
      cases hreg : ctx.badDomainsRegex with
      | none => rw [hreg] at h; exact absurd h (by simp)
      | some m => rw [hreg] at h; exact Or.inr ⟨m, rfl, h⟩
    · intro h
      rcases h with ⟨hb1, d, hd, hsuf⟩ | ⟨m, hm, hme⟩
      · exact absurd (by
          rw [Bool.and_eq_true_iff]
          refine ⟨hb1, ?_⟩
          unfold EndsWith
          simp only [List.any_eq_true]
          exact ⟨d, hd, hsuf⟩) hb
      · rw [hm]
        exact hme

/-- Claim C2: the new-account gate blocks exactly when the account age
is strictly below the parsed duration (age equal to the duration is
allowed); the duration `"-1"` blocks regardless of age with the
"indefinitely" message; and when the duration does not parse the gate
returns an error and `filterNewUserContent` rejects the post (fail
closed), never passing it through. -/
theorem claim_C2 (parse : String → Option Int) (fmtDur : Int → String) (nowNs : Int)
    (user : User) (post : Post) (ct s um : String) (d : Int)
    (hs : s ≠ "-1") (hadmin : isSystemAdmin user = false) :
    (parse s = some d →
      ((isUserTooNew parse fmtDur nowNs user s ct).1 = true ↔
        nowNs - user.createAt * 1000000 < d)) ∧
    isUserTooNew parse fmtDur nowNs user "-1" ct =
      (true, "New user not allowed to post " ++ ct ++ " indefinitely.", none) ∧
    (parse s = none →
      filterNewUserContent (some user) parse fmtDur nowNs post ct s um =
        (none, "failed to parse duration")) := by
  refine ⟨?_, by simp [isUserTooNew], ?_⟩
  · intro hp
    by_cases hlt : nowNs - user.createAt * 1000000 < d
    · simp [isUserTooNew, hs, hp, hlt]
    · simp [isUserTooNew, hs, hp, hlt]
  · intro hp
    have h0 : isUserTooNew parse fmtDur nowNs user s ct =
        (false, "", some "failed to parse duration") := by
      unfold isUserTooNew
      rw [if_neg hs, hp]
    simp [filterNewUserContent, hadmin, h0]

/-- Claim C2, witness at a concrete 24h duration, a fresh account, and
a broken duration string. -/
theorem claim_C2_witness :
    (isUserTooNew parseOnly24h fmtDurConst 1000000 userPlain "24h" "links").1 = true ∧
    isUserTooNew parseOnly24h fmtDurConst 0 userPlain "-1" "links" =
      (true, "New user not allowed to post " ++ "links" ++ " indefinitely.", none) ∧
    filterNewUserContent (some userPlain) parseOnly24h fmtDurConst 0 postPlain
      "links" "1 hour" "msg" = (none, "failed to parse duration") := by
  have h1 := claim_C2 parseOnly24h fmtDurConst 1000000 userPlain postPlain
    "links" "24h" "msg" 86400000000000 (by decide) (by decide)
  have h2 := claim_C2 parseOnly24h fmtDurConst 0 userPlain postPlain
    "links" "1 hour" "msg" 0 (by decide) (by decide)
  exact ⟨(h1.1 (by decide)).mpr (by decide), h1.2.1, h2.2.2 (by decide)⟩

/-- Claim C4, divergence record.  With `BadWordsList = "bad"`, censor
character `"*"` and reject mode off, a post saying `"say bâd"` IS
detected (the de-accented text matches and the detected word is
`"bad"`), but the censoring loop replaces the literal `"bad"` in the
ORIGINAL message, which contains only `"bâd"`, so the post passes
through completely unchanged — the claim instead requires
`"say ***"`.  The same pipeline does censor the unaccented
`"say bad"`. -/
theorem claim_C4_divergence :
    matchStringB (wordListTokens "bad".data) (removeAccentsL "say bâd".data) = true ∧
    findAllB (wordListTokens "bad".data) (removeAccentsL "say bâd".data) = ["bad".data] ∧
    filterPostBadWords (wordListTokens "bad".data) false "*" ⟨"u1", "c1", "", "say bâd"⟩ =
      (some ⟨"u1", "c1", "", "say bâd"⟩, "") ∧
    filterPostBadWords (wordListTokens "bad".data) false "*" ⟨"u1", "c1", "", "say bad"⟩ =
      (some ⟨"u1", "c1", "", "say ***"⟩, "") :=
  ⟨by decide, by decide, by decide, by decide⟩

/-- Claim C6: `setConfiguration` panics when called with the very
pointer that is already active (the configuration struct has 15 fields,
so the empty-struct escape hatch never applies), while a fresh pointer
— even one carrying an equal value — replaces the active
configuration. -/
theorem claim_C6 (c : ConfigPtr) (a2 : Nat) (v2 : Configuration) (h : a2 ≠ c.addr) :
    setConfiguration (some c) (some c) = none ∧
    setConfiguration (some c) (some ⟨a2, v2⟩) = some (some ⟨a2, v2⟩) := by
  constructor
  · simp [setConfiguration, numFieldsConfiguration]
  · simp [setConfiguration, h]

/-- Claim C6, witness: same address panics; a fresh address carrying
the very same configuration value is accepted. -/
theorem claim_C6_witness :
    setConfiguration (some ⟨0, emptyConfiguration⟩) (some ⟨0, emptyConfiguration⟩) = none ∧
    setConfiguration (some ⟨0, emptyConfiguration⟩) (some ⟨1, emptyConfiguration⟩) =
      some (some ⟨1, emptyConfiguration⟩) :=
  claim_C6 ⟨0, emptyConfiguration⟩ 1 emptyConfiguration (by decide)

/-- Claim C7, counterexample: invoked with the empty duration string,
the gate does NOT pass the post through — `time.ParseDuration("")`
fails, so the post is rejected with the parse error. -/
theorem claim_C7_counterexample :
    filterNewUserContent (some userPlain) parseOnly24h fmtDurConst 0 postPlain
      "direct messages" "" "msg" = (none, "failed to parse duration") ∧
    filterNewUserContent (some userPlain) parseOnly24h fmtDurConst 0 postPlain
      "direct messages" "" "msg" ≠ (some postPlain, "") :=
  ⟨by decide, by decide⟩

/-- Claim C7, amended: the empty duration string is accepted by
configuration-time validation (`validateDurationConfig` treats it as
"feature disabled"), but the gate itself treats it as an unparseable
duration: a non-admin post evaluated with the empty duration string is
rejected (fail closed), not passed through. -/
theorem claim_C7_amended (parse : String → Option Int) (fmtDur : Int → String) (nowNs : Int)
    (user : User) (post : Post) (ct um : String)
    (hparse : parse "" = none) (hadmin : isSystemAdmin user = false) :
    validateDurationConfig parse "" = true ∧
    filterNewUserContent (some user) parse fmtDur nowNs post ct "" um =
      (none, "failed to parse duration") := by
  refine ⟨rfl, ?_⟩
  have h0 : isUserTooNew parse fmtDur nowNs user "" ct =
      (false, "", some "failed to parse duration") := by
    unfold isUserTooNew
    rw [if_neg (by decide), hparse]
  simp [filterNewUserContent, hadmin, h0]

/-- Claim C7, witness. -/
theorem claim_C7_witness :
    validateDurationConfig parseOnly24h "" = true ∧
    filterNewUserContent (some userPlain) parseOnly24h fmtDurConst 0 postPlain
      "direct messages" "" "msg" = (none, "failed to parse duration") :=
  claim_C7_amended parseOnly24h fmtDurConst 0 userPlain postPlain "direct messages" "msg"
    (by decide) (by decide)

/-- Claim C8, counterexample: capacity 1, `Put ""` then `Put "a"` —
`evictOldest` cannot name the empty-string key (its scan sentinel is
`""`), so nothing is evicted and the cache holds 2 > 1 entries. -/
theorem claim_C8_counterexample :
    (applyOps (newLRUCache 1) [CacheOp.put "" emptyUser, CacheOp.put "a" emptyUser]).entries.length
        = 2 ∧
    ¬ ((applyOps (newLRUCache 1)
        [CacheOp.put "" emptyUser, CacheOp.put "a" emptyUser]).entries.length ≤
          (newLRUCache 1).capacity) :=
  ⟨by decide, by decide⟩

/-- Claim C8, amended: for every sequence of Get, Put and Remove
operations in which Put is never called with the empty-string key, an
LRU cache of capacity ≥ 1 never holds more entries than its
capacity. -/
theorem claim_C8_amended (ops : List CacheOp) (cap : Nat) (hcap : 1 ≤ cap)
    (hput : ∀ op ∈ ops, putKeyOK op = true) :
    (applyOps (newLRUCache cap) ops).entries.length ≤ cap := by
  have h := applyOps_good ops (newLRUCache cap) (by simpa [newLRUCache] using hcap)
    ⟨fun e he => absurd he (List.not_mem_nil e), by simp [newLRUCache]⟩ hput
  have h2 := h.1.2
  rw [h.2] at h2
  simpa [newLRUCache] using h2

/-- Claim C8, witness: a mixed operation sequence on a capacity-1
cache. -/
theorem claim_C8_witness :
    (applyOps (newLRUCache 1)
      [CacheOp.put "a" emptyUser, CacheOp.put "b" emptyUser, CacheOp.get "a",
        CacheOp.remove "b", CacheOp.put "c" emptyUser]).entries.length ≤ 1 :=
  claim_C8_amended
    [CacheOp.put "a" emptyUser, CacheOp.put "b" emptyUser, CacheOp.get "a",
      CacheOp.remove "b", CacheOp.put "c" emptyUser] 1 (by decide) (by decide)

/-- Claim C9: the flagged-author stage fails open — with an empty user
id, an unavailable API, or a failed author fetch, `shouldBlockUserPost`
returns `false` (the post is not rejected at that stage) — whereas the
new-account gate rejects outright when the author fetch fails. -/
theorem claim_C9 (ctx : ModerationCtx) (api : Bool) (fetched : Option User) (uid : String)
    (h : uid = "" ∨ api = false ∨ fetched = none) :
    shouldBlockUserPost ctx api fetched uid = false ∧
    (∀ (parse : String → Option Int) (fmtDur : Int → String) (nowNs : Int) (post : Post)
        (ct bd um : String),
      filterNewUserContent none parse fmtDur nowNs post ct bd um =
        (none, "Failed to get user")) := by
  refine ⟨?_, fun _ _ _ _ _ _ _ => rfl⟩
  rcases h with h | h | h
  · simp [shouldBlockUserPost, h]
  · simp [shouldBlockUserPost, h]
  · simp [shouldBlockUserPost, h]

/-- Claim C9, witness: empty user id. -/
theorem claim_C9_witness :
    shouldBlockUserPost ⟨false, [], none, none⟩ true (some emptyUser) "" = false ∧
    filterNewUserContent none parseOnly24h fmtDurConst 0 postPlain "links" "24h" "msg" =
      (none, "Failed to get user") := by
  have h := claim_C9 ⟨false, [], none, none⟩ true (some emptyUser) "" (Or.inl rfl)
  exact ⟨h.1, h.2 parseOnly24h fmtDurConst 0 postPlain "links" "24h" "msg"⟩

/-- Claim C10: `UserWillLogIn` denies login (returns a nonempty
message) exactly for the users that are soft-deleted, or whose username
or nickname matches the bad-usernames rule, or whose email matches the
bad-email rule; every other user gets the empty string (login
allowed). -/
theorem claim_C10 (ctx : ModerationCtx) (user : User) :
    UserWillLogIn ctx user ≠ "" ↔
      (0 < user.deleteAt ∨ checkBadUsername ctx user = true ∨
        checkBadEmail ctx user.email = true) := by
  unfold UserWillLogIn
  split_ifs with h1 h2 h3
  · exact ⟨fun _ => Or.inl h1, fun _ => by decide⟩
  · exact ⟨fun _ => Or.inr (Or.inl h2), fun _ => by decide⟩
  · exact ⟨fun _ => Or.inr (Or.inr h3), fun _ => by decide⟩
  · constructor
    · intro h
      exact absurd rfl h
    · rintro (h | h | h)
      · exact absurd h h1
      · exact absurd h h2
      · exact absurd h h3

/-- Claim C3, counterexample.  With capacity 1 and the two distinct
keys `""` and `"a"`, the claim predicts that the second insertion
evicts the older entry, leaving `["a"]`; but `evictOldest` cannot name
the empty-string key (its scan sentinel is `""`), so nothing is evicted
and both keys remain. -/
theorem claim_C3_counterexample :
    keysOf ((putAll emptyUser (newLRUCache 1) ["", "a"]).entries) = ["", "a"] ∧
    keysOf ((putAll emptyUser (newLRUCache 1) ["", "a"]).entries) ≠ ["a"] :=
  ⟨by decide, by decide⟩

/-- Claim C3, amended: for capacity c = kmid.length + 2 ≥ 2 and c + 1
distinct NONEMPTY keys `k0, k1, kmid…, klast`, (A) inserting all of
them into an empty cache evicts exactly the least-recently-used entry
`k0` and keeps every other key; (B) inserting the first c keys, then
reading `k0` (which refreshes its recency), then inserting `klast`
evicts `k1` instead — the read protects `k0` from the next
eviction. -/
theorem claim_C3_amended (u : User) (k0 k1 klast : String) (kmid : List String)
    (hnd : (k0 :: k1 :: (kmid ++ [klast])).Nodup)
    (hne : ∀ k ∈ k0 :: k1 :: (kmid ++ [klast]), k ≠ "") :
    keysOf ((putAll u (newLRUCache (kmid.length + 2))
        (k0 :: k1 :: (kmid ++ [klast]))).entries) = k1 :: (kmid ++ [klast]) ∧
    keysOf ((cachePut
        ((cacheGet (putAll u (newLRUCache (kmid.length + 2)) (k0 :: k1 :: kmid)) k0).2)
        klast u).entries) = k0 :: (kmid ++ [klast]) := by
  have hk0 : k0 ≠ "" := hne k0 (List.mem_cons_self _ _)
  have hk1 : k1 ≠ "" := hne k1 (List.mem_cons_of_mem _ (List.mem_cons_self _ _))
  have h0tail : k0 ∉ k1 :: (kmid ++ [klast]) := (List.nodup_cons.mp hnd).1
  have hndtail : (k1 :: (kmid ++ [klast])).Nodup := (List.nodup_cons.mp hnd).2
  have h1tail : k1 ∉ kmid ++ [klast] := (List.nodup_cons.mp hndtail).1
  have hndtail2 : (kmid ++ [klast]).Nodup := (List.nodup_cons.mp hndtail).2
  have h01 : k0 ≠ k1 := fun h => h0tail (by rw [h]; exact List.mem_cons_self _ _)
  have h0m : k0 ∉ k1 :: kmid := by
    intro h
    apply h0tail
    rcases List.mem_cons.mp h with h | h
    · exact List.mem_cons.mpr (Or.inl h)
    · exact List.mem_cons.mpr (Or.inr (List.mem_append.mpr (Or.inl h)))
  have h1m : k1 ∉ kmid := fun h => h1tail (List.mem_append.mpr (Or.inl h))
  have hlast0 : klast ≠ k0 := by
    intro h
    apply h0tail
    rw [← h]
    exact List.mem_cons.mpr (Or.inr (List.mem_append.mpr (Or.inr (List.mem_singleton.mpr rfl))))
  have hlast1 : klast ≠ k1 := by
    intro h
    apply h1tail
    rw [← h]
    exact List.mem_append.mpr (Or.inr (List.mem_singleton.mpr rfl))
  have hlastm : klast ∉ kmid := by
    intro h
    exact (List.nodup_append.mp hndtail2).2.2 h (List.mem_singleton.mpr rfl)
  have hndinit : (k0 :: k1 :: kmid).Nodup := by
    rw [List.nodup_cons]
    refine ⟨h0m, ?_⟩
    rw [List.nodup_cons]
    exact ⟨h1m, (List.nodup_append.mp hndtail2).1⟩
  have hphase : putAll u (newLRUCache (kmid.length + 2)) (k0 :: k1 :: kmid) =
      ⟨kmid.length + 2, stampFrom u 0 (k0 :: k1 :: kmid), kmid.length + 2⟩ := by
    have h := putAll_fresh u (k0 :: k1 :: kmid) (kmid.length + 2) [] 0
      (fun k _ e he => absurd he (List.not_mem_nil e)) hndinit (by simp)
    simpa [newLRUCache] using h
  have hanyA : (stampFrom u 0 (k0 :: k1 :: kmid)).any (fun e => e.key == klast) = false := by
    rw [List.any_eq_false]
    intro e he
    simp only [beq_iff_eq]
    intro hc
    have hm := (stampFrom_mem he).1
    rw [hc] at hm
    rcases List.mem_cons.mp hm with h | h
    · exact hlast0 h
    · rcases List.mem_cons.mp h with h | h
      · exact hlast1 h
      · exact hlastm h
  constructor
  · have hsplit : putAll u (newLRUCache (kmid.length + 2)) (k0 :: k1 :: (kmid ++ [klast])) =
        cachePut (putAll u (newLRUCache (kmid.length + 2)) (k0 :: k1 :: kmid)) klast u := by
      show putAll u (newLRUCache (kmid.length + 2)) ((k0 :: k1 :: kmid) ++ [klast]) = _
      unfold putAll
      rw [List.foldl_append]
      rfl
    have hlenE : kmid.length + 2 ≤ (stampFrom u 0 (k0 :: k1 :: kmid)).length := by
      rw [stampFrom_length]
      simp
    rw [hsplit, hphase]
    rw [cachePut_evict _ _ _ _ _ hanyA hlenE]
    have hE : stampFrom u 0 (k0 :: k1 :: kmid) =
        ⟨k0, u, 0⟩ :: stampFrom u (0 + 1) (k1 :: kmid) := rfl
    rw [hE, evict_stamp u k0 (k1 :: kmid) 0 hk0 h0m]
    rw [keysOf_append, stampFrom_keys]
    simp [keysOf]
  · rw [hphase]
    have hE : stampFrom u 0 (k0 :: k1 :: kmid) =
        ⟨k0, u, 0⟩ :: stampFrom u (0 + 1) (k1 :: kmid) := rfl
    rw [hE]
    have hrest : ∀ e ∈ stampFrom u (0 + 1) (k1 :: kmid), e.key ≠ k0 := by
      intro e he hc
      apply h0m
      rw [← hc]
      exact (stampFrom_mem he).1
    rw [cacheGet_head (kmid.length + 2) (kmid.length + 2) 0 k0 u _ hrest]
    have hany2 : ((⟨k0, u, kmid.length + 2⟩ : CacheEntry) ::
        stampFrom u (0 + 1) (k1 :: kmid)).any (fun e => e.key == klast) = false := by
      rw [List.any_eq_false]
      intro e he
      simp only [beq_iff_eq]
      intro hc
      rcases List.mem_cons.mp he with rfl | h
      · exact hlast0 hc.symm
      · have hm := (stampFrom_mem h).1
        rw [hc] at hm
        rcases List.mem_cons.mp hm with h2 | h2
        · exact hlast1 h2
        · exact hlastm h2
    have hlen2 : kmid.length + 2 ≤ ((⟨k0, u, kmid.length + 2⟩ : CacheEntry) ::
        stampFrom u (0 + 1) (k1 :: kmid)).length := by
      simp [stampFrom_length]
    rw [cachePut_evict _ _ _ _ _ hany2 hlen2]
    have hE2 : stampFrom u (0 + 1) (k1 :: kmid) =
        ⟨k1, u, 0 + 1⟩ :: stampFrom u (0 + 1 + 1) kmid := rfl
    rw [hE2]
    rw [evict_refreshed u k0 k1 kmid (kmid.length + 2) (0 + 1) hk0 hk1 (by omega) h01 h1m]
    rw [keysOf_append, keysOf_cons, stampFrom_keys]
    simp [keysOf]

/-- Claim C3, witness: capacity 3, keys a b c d. -/
theorem claim_C3_witness :
    keysOf ((putAll emptyUser (newLRUCache 3) ["a", "b", "c", "d"]).entries) = ["b", "c", "d"] ∧
    keysOf ((cachePut
        ((cacheGet (putAll emptyUser (newLRUCache 3) ["a", "b", "c"]) "a").2)
        "d" emptyUser).entries) = ["a", "c", "d"] := by
  have h := claim_C3_amended emptyUser "a" "b" "d" ["c"] (by decide) (by decide)
  simpa using h

/-- Claim C5: the word-list compiler sorts the trimmed tokens by
descending byte length before joining, so when a word list holds both a
token `a` and a longer phrase `a ++ r` extending it, and the longer
phrase matches (word-bounded, case-insensitive) at a position of the
text, the leftmost-first alternation never yields the shorter token
`a` there: the winning alternative is at least as long as the phrase,
and is the phrase itself whenever no longer alternative also matches
there. -/
theorem claim_C5 (wl a r s : List Char) (p : Nat)
    (ha : a ∈ (splitComma wl).map trimChars)
    (hb : (a ++ r) ∈ (splitComma wl).map trimChars)
    (hr : r ≠ [])
    (hm : tokAtB (a ++ r) s p = true) :
    (∃ m, firstTokAtB (wordListTokens wl) s p = some m ∧
      goLenL (a ++ r) ≤ goLenL m ∧ m ≠ a) ∧
    ((∀ t ∈ wordListTokens wl, tokAtB t s p = true →
        goLenL t ≤ goLenL (a ++ r) ∧ (goLenL t = goLenL (a ++ r) → t = a ++ r)) →
      firstTokAtB (wordListTokens wl) s p = some (a ++ r)) := by
  have hsorted : List.Sorted lenGE (wordListTokens wl) :=
    List.sorted_insertionSort lenGE _
  have hmem : (a ++ r) ∈ wordListTokens wl :=
    ((List.perm_insertionSort lenGE _).mem_iff).mpr hb
  obtain ⟨m, hfind, hge⟩ :=
    @find_sorted_ge (wordListTokens wl) (fun t => tokAtB t s p) (a ++ r) hsorted hmem hm
  have hlt : goLenL a < goLenL (a ++ r) := by
    rw [goLenL_append]
    have := goLenL_pos hr
    omega
  have hma : m ≠ a := by
    intro he
    rw [he] at hge
    omega
  refine ⟨⟨m, hfind, hge, hma⟩, ?_⟩
  intro huniq
  have hPm := List.find?_some hfind
  have hmemm := List.mem_of_find?_eq_some hfind
  obtain ⟨hle, heq⟩ := huniq m hmemm hPm
  unfold firstTokAtB
  rw [hfind]
  exact congrArg some (heq (Nat.le_antisymm hle hge))

/-- Claim C5, witness: word list `"abc,abc def"`, text containing
`"abc def"` at position 3 — the alternation yields the whole phrase. -/
theorem claim_C5_witness :
    firstTokAtB (wordListTokens "abc,abc def".data) "xx abc def yy".data 3 =
      some ("abc".data ++ " def".data) := by
  have h := claim_C5 "abc,abc def".data "abc".data " def".data "xx abc def yy".data 3
    (by decide) (by decide) (by decide) (by decide)
  exact h.2 (by decide)

end Toolkit
